import Mathlib

/-!
Verification of the Villion vector-index core (src/vector.rs, src/math.rs,
src/store.rs) against its specification.

Modelling conventions, shared by every definition below:

* A Rust `f32` coordinate is modelled as a rational number `ℚ`, and float
  arithmetic is modelled as exact arithmetic.  All the properties verified
  here are structural (which index is returned, which bucket a handle lands
  in, how sequences round-trip), not numerical-precision statements.
* The source's `euclidean_distance` is `sqrt (Σ (aᵢ - bᵢ)²)`.  We model it
  by the *squared* Euclidean distance, dropping the final `sqrt`: the square
  root is strictly monotone on nonnegative values, so every comparison,
  argmin and exact tie computed by the source is preserved verbatim, and the
  "reported distance" of a search is the squared distance of exactly the same
  vector pair the source reports.
* Rust panics (out-of-bounds indexing, `unwrap` on `None`) are modelled by
  the `Except.error` branch of functions returning `Except String _`.
* The ambient random sampling used by `kmeans` initialization
  (`vectors.choose_multiple(&mut rng, k)`) is passed in as an explicit
  `init` argument; its contract (when `k ≤ vectors.length` it yields `k`
  elements of `vectors`, sampled without replacement) becomes hypotheses of
  the theorems that need it.
-/

namespace Villion

/-- Model of `DenseVector` (src/vector.rs): a full-precision vector. -/
structure DenseVector where
  elements : List ℚ
deriving DecidableEq, Repr

/-- Model of `QuantizedVector` (src/vector.rs): the reduced-precision view. -/
structure QuantizedVector where
  elements : List ℚ
deriving DecidableEq, Repr

instance : Inhabited DenseVector := ⟨⟨[]⟩⟩

/-- Model of `euclidean_distance` (src/math.rs, src/vector.rs): the source
computes `sqrt` of the sum of squared coordinate differences; we keep the sum
of squares (see the header comment: `sqrt` is strictly monotone, so all
comparisons are preserved).  Like Rust's `zip`, mismatched lengths silently
truncate (the source only debug-asserts equal lengths). -/
def euclidean_distance (a b : List ℚ) : ℚ :=
  ((a.zip b).map (fun p => (p.1 - p.2) ^ 2)).sum

/-- Model of `Distances for DenseVector` (src/vector.rs). -/
def DenseVector.distance (a b : DenseVector) : ℚ :=
  euclidean_distance a.elements b.elements

/-- Model of `Distances for QuantizedVector` (src/vector.rs). -/
def QuantizedVector.distance (a b : QuantizedVector) : ℚ :=
  euclidean_distance a.elements b.elements

/-- Model of `mean_vector` (src/math.rs): coordinate-wise mean.  The source
panics on an empty list; callers below only use it on non-empty clusters.
`sumInto acc xs` models the inner loop `sum_elements[i] += val` (indices of
`xs` beyond `acc.length` would panic in Rust; they do not occur because all
summed vectors share the dimension of `vectors[0]`). -/
def sumInto (acc xs : List ℚ) : List ℚ :=
  acc.zipWith (· + ·) xs ++ acc.drop xs.length

/-- Model of `mean_vector` (src/math.rs), continued: sum all vectors into a
zero vector of the first vector's dimension, then divide by the count. -/
def mean_vector (vectors : List DenseVector) : DenseVector :=
  let dim := (vectors.headD ⟨[]⟩).elements.length
  let sum_elements := vectors.foldl (fun acc v => sumInto acc v.elements)
    (List.replicate dim 0)
  ⟨sum_elements.map (fun val => val / (vectors.length : ℚ))⟩

/-- Model of Rust's `Iterator::min_by` over an enumerated sequence with the
comparator `a.partial_cmp(b).unwrap_or(Equal)` (src/math.rs, and the scan
loops of src/store.rs): returns the value and position of the *first*
occurrence of the minimum (`min_by` keeps the earlier element on exact ties),
`none` on an empty sequence. -/
def minByFirst : List ℚ → Option (ℕ × ℚ)
  | [] => none
  | x :: xs =>
    match minByFirst xs with
    | none => some (0, x)
    | some (i, d) => if d < x then some (i + 1, d) else some (0, x)

/-- Model of the assignment computation inside `kmeans` (src/math.rs lines
52-64): index of the closest centroid to `v`, computed with `min_by`
(first-seen wins on exact ties).  `none` models the `unwrap` panic on an
empty centroid list. -/
def closestIndex (centroids : List DenseVector) (v : DenseVector) : Option ℕ :=
  (minByFirst (centroids.map (fun centroid => centroid.distance v))).map Prod.fst

/-- Model of the assignment pass of `kmeans` (src/math.rs): distribute every
vector into the cluster of its closest centroid, starting from `k` empty
clusters (`vec![vec![]; k]`).  The `none` branch models the panic on empty
centroids and does not occur for the inputs considered here. -/
def kmeansAssign (vectors : List DenseVector) (k : ℕ)
    (centroids : List DenseVector) : List (List DenseVector) :=
  vectors.foldl (fun clusters v =>
    match closestIndex centroids v with
    | some i => clusters.set i (clusters.getD i [] ++ [v])
    | none => clusters) (List.replicate k [])

/-- Model of the update pass of `kmeans` (src/math.rs lines 67-75): each new
centroid is the mean of its cluster, and — exactly as written in the source —
an empty cluster receives `centroids[0].clone()`, the *first* old centroid
(the `getD` default models the panic of `centroids[0]` on an empty list). -/
def kmeansUpdate (centroids : List DenseVector)
    (clusters : List (List DenseVector)) : List DenseVector :=
  clusters.map (fun cluster =>
    if cluster.isEmpty then centroids.getD 0 ⟨[]⟩ else mean_vector cluster)

/-- Model of the `for _ in 0..max_iters` loop of `kmeans` (src/math.rs). -/
def kmeansLoop (vectors : List DenseVector) (k : ℕ) :
    ℕ → List DenseVector → List DenseVector
  | 0, centroids => centroids
  | n + 1, centroids =>
      kmeansLoop vectors k n (kmeansUpdate centroids (kmeansAssign vectors k centroids))

/-- Model of `kmeans` (src/math.rs).  `init` stands for the random sample
`vectors.choose_multiple(&mut rng, k)` used as the starting centroids (see
the header comment on randomness). -/
def kmeans (init vectors : List DenseVector) (k max_iters : ℕ) : List DenseVector :=
  kmeansLoop vectors k max_iters init

theorem minByFirst_eq_none_iff (l : List ℚ) : minByFirst l = none ↔ l = [] := by
  cases l with
  | nil => simp [minByFirst]
  | cons x xs =>
    simp only [minByFirst]
    cases h : minByFirst xs with
    | none => simp
    | some p =>
      obtain ⟨i, d⟩ := p
      by_cases hd : d < x <;> simp [hd]

theorem minByFirst_spec (l : List ℚ) (i : ℕ) (d : ℚ)
    (h : minByFirst l = some (i, d)) :
    l.get? i = some d ∧ (∀ j e, l.get? j = some e → d ≤ e) ∧
      (∀ j e, j < i → l.get? j = some e → d < e) := by
  induction l generalizing i d with
  | nil => simp [minByFirst] at h
  | cons x xs ih =>
    simp only [minByFirst] at h
    cases hm : minByFirst xs with
    | none =>
      rw [hm] at h
      have hxs : xs = [] := (minByFirst_eq_none_iff xs).mp hm
      subst hxs
      simp only [Option.some.injEq, Prod.mk.injEq] at h
      obtain ⟨hi, hd⟩ := h
      subst hi; subst hd
      refine ⟨rfl, ?_, ?_⟩
      · intro j e hj
        cases j with
        | zero =>
          simp only [List.get?, Option.some.injEq] at hj
          exact le_of_eq hj
        | succ j => simp at hj
      · intro j e hj hget
        omega
    | some p =>
      obtain ⟨p1, q⟩ := p
      rw [hm] at h
      obtain ⟨hget, hmin, hstrict⟩ := ih p1 q hm
      by_cases hd : q < x
      · simp only [hd, if_true, Option.some.injEq, Prod.mk.injEq] at h
        obtain ⟨hi, hdq⟩ := h
        subst hdq
        subst hi
        refine ⟨by simpa using hget, ?_, ?_⟩
        · intro j e hj
          cases j with
          | zero =>
            simp only [List.get?] at hj
            cases hj
            exact le_of_lt hd
          | succ j => exact hmin j e (by simpa using hj)
        · intro j e hj hje
          cases j with
          | zero =>
            simp only [List.get?] at hje
            cases hje
            exact hd
          | succ j =>
            exact hstrict j e (by omega) (by simpa using hje)
      · simp only [hd, if_false, Option.some.injEq, Prod.mk.injEq] at h
        obtain ⟨hi, hdx⟩ := h
        subst hdx
        subst hi
        refine ⟨rfl, ?_, ?_⟩
        · intro j e hj
          cases j with
          | zero =>
            simp only [List.get?, Option.some.injEq] at hj
            exact le_of_eq hj
          | succ j =>
            have := hmin j e (by simpa using hj)
            have hxq : x ≤ q := not_lt.mp hd
            exact le_trans hxq this
        · intro j e hj hget
          omega

theorem minByFirst_ne_none (l : List ℚ) (h : l ≠ []) :
    ∃ i d, minByFirst l = some (i, d) := by
  cases hm : minByFirst l with
  | none => exact absurd ((minByFirst_eq_none_iff l).mp hm) h
  | some p => exact ⟨p.1, p.2, by simp⟩

theorem minByFirst_lt_length (l : List ℚ) (i : ℕ) (d : ℚ)
    (h : minByFirst l = some (i, d)) : i < l.length := by
  have := (minByFirst_spec l i d h).1
  exact List.get?_eq_some.mp this |>.1

/-- Claim C6: in every k-means assignment pass, each input vector is assigned
to the centroid of minimum distance, and on exact ties the centroid with the
lowest index wins (first-seen wins, `min_by` semantics): whenever the
assignment computation returns index `i`, centroid `i` has distance to `v`
less than or equal to every centroid's, and strictly less than every earlier
centroid's. -/
theorem assignment_min_by (centroids : List DenseVector) (v : DenseVector) (i : ℕ)
    (h : closestIndex centroids v = some i) :
    ∃ ci, centroids.get? i = some ci ∧
      (∀ j cj, centroids.get? j = some cj → ci.distance v ≤ cj.distance v) ∧
      (∀ j cj, j < i → centroids.get? j = some cj → ci.distance v < cj.distance v) := by
  simp only [closestIndex, Option.map_eq_some'] at h
  obtain ⟨⟨i2, d⟩, hm, hfst⟩ := h
  simp only at hfst
  subst hfst
  obtain ⟨hget, hmin, hstrict⟩ := minByFirst_spec _ _ _ hm
  rw [List.get?_map] at hget
  obtain ⟨ci, hci, hfci⟩ := Option.map_eq_some'.mp hget
  refine ⟨ci, hci, ?_, ?_⟩
  · intro j cj hj
    have : (centroids.map (fun centroid => centroid.distance v)).get? j =
        some (cj.distance v) := by
      rw [List.get?_map, hj, Option.map_some']
    have hle := hmin j (cj.distance v) this
    rw [hfci]
    exact hle
  · intro j cj hji hj
    have : (centroids.map (fun centroid => centroid.distance v)).get? j =
        some (cj.distance v) := by
      rw [List.get?_map, hj, Option.map_some']
    have hlt := hstrict j (cj.distance v) hji this
    rw [hfci]
    exact hlt

/-- Witness for `assignment_min_by`: the centroids `[0]` and `[2]` are at the
same distance from the query `[1]`; the assignment returns index 0 (first-seen
wins), and the stated minimality facts hold there. -/
theorem assignment_min_by_witness :
    ∃ ci, [(⟨[0]⟩ : DenseVector), ⟨[2]⟩].get? 0 = some ci ∧
      (∀ j cj, [(⟨[0]⟩ : DenseVector), ⟨[2]⟩].get? j = some cj →
        ci.distance ⟨[1]⟩ ≤ cj.distance ⟨[1]⟩) ∧
      (∀ j cj, j < 0 → [(⟨[0]⟩ : DenseVector), ⟨[2]⟩].get? j = some cj →
        ci.distance ⟨[1]⟩ < cj.distance ⟨[1]⟩) :=
  assignment_min_by [⟨[0]⟩, ⟨[2]⟩] ⟨[1]⟩ 0 (by
    norm_num [closestIndex, minByFirst, DenseVector.distance, euclidean_distance])

/-- Claim C8: with `max_iters = 0`, `kmeans` returns the initial randomly
sampled centroids unchanged and in order, with length exactly `k` (the length
hypothesis is the `choose_multiple` contract for `1 ≤ k ≤ vectors.length`). -/
theorem kmeans_zero_iters (init vectors : List DenseVector) (k : ℕ)
    (hk : 1 ≤ k) (hkn : k ≤ vectors.length) (hinit : init.length = k) :
    kmeans init vectors k 0 = init ∧ (kmeans init vectors k 0).length = k :=
  ⟨rfl, by simpa [kmeans, kmeansLoop] using hinit⟩

/-- Witness for `kmeans_zero_iters` at a concrete input. -/
theorem kmeans_zero_iters_witness :
    kmeans [⟨[1]⟩] [⟨[1]⟩, ⟨[2]⟩] 1 0 = [(⟨[1]⟩ : DenseVector)] ∧
      (kmeans [⟨[1]⟩] [⟨[1]⟩, ⟨[2]⟩] 1 0).length = 1 :=
  kmeans_zero_iters [⟨[1]⟩] [⟨[1]⟩, ⟨[2]⟩] 1 (by decide) (by decide) (by decide)

/-- Claim C1 (refuted by the code — code bug): on the vectors
`[[0], [5], [5]]` with `k = 3`, `max_iters = 1` and sampled initial centroids
`[[0], [5], [5]]` (a valid `choose_multiple` outcome: the three distinct
positions in random order), the assignment pass leaves cluster 2 empty (both
`[5]` vectors tie between centroids 1 and 2 and `min_by` gives them to
centroid 1), and the update pass then sets the new centroid 2 to the *old
centroid 0*, `[0]` — the source reads `centroids[0].clone()` instead of the
current cluster's own centroid — and not to its previous position `[5]` as
the claim (and the source's own comment) states. -/
theorem kmeans_empty_cluster_uses_centroid_zero :
    kmeansAssign [⟨[0]⟩, ⟨[5]⟩, ⟨[5]⟩] 3 [⟨[0]⟩, ⟨[5]⟩, ⟨[5]⟩] =
      [[⟨[0]⟩], [⟨[5]⟩, ⟨[5]⟩], []] ∧
    kmeans [⟨[0]⟩, ⟨[5]⟩, ⟨[5]⟩] [⟨[0]⟩, ⟨[5]⟩, ⟨[5]⟩] 3 1 = [⟨[0]⟩, ⟨[5]⟩, ⟨[0]⟩] ∧
    (kmeans [⟨[0]⟩, ⟨[5]⟩, ⟨[5]⟩] [⟨[0]⟩, ⟨[5]⟩, ⟨[5]⟩] 3 1).get? 2 ≠ some ⟨[5]⟩ := by
  refine ⟨?_, ?_, ?_⟩ <;>
    norm_num [kmeans, kmeansLoop, kmeansUpdate, kmeansAssign, closestIndex,
      minByFirst, DenseVector.distance, euclidean_distance, mean_vector, sumInto,
      List.isEmpty, List.replicate, List.foldl]

/-- Modelled from the spec: `nearest_vector_index` is imported and called by
src/store.rs but its definition is not under src/ (src/math.rs does not
contain it).  Spec §4.3: returns the position of the candidate with minimum
distance to `query`; on exact ties returns the lowest index; undefined/error
if `candidates` is empty (modelled as `none`, which callers turn into the
panic branch). -/
def nearest_vector_index (query : DenseVector) (candidates : List DenseVector) :
    Option ℕ :=
  (minByFirst (candidates.map (fun c => query.distance c))).map Prod.fst

/-- Model of `VectorStore` (src/store.rs).  The `HashMap<usize, Vec<usize>>`
of the IVF index is modelled as an association list looked up by
`alGet` (first matching key; `build_index` inserts each key once). -/
structure VectorStore where
  dense : List DenseVector
  quantized : List QuantizedVector
  ivf_index : Option (List (ℕ × List ℕ))
  centroids : Option (List DenseVector)
deriving DecidableEq, Repr

/-- Model of `VectorStore::new` (src/store.rs). -/
def VectorStore.new : VectorStore := ⟨[], [], none, none⟩

/-- Model of `VectorStore::add` (src/store.rs): push the 2-prefix reduced
view onto `quantized` and the full vector onto `dense`. -/
def VectorStore.add (s : VectorStore) (full_vector : DenseVector) : VectorStore :=
  { s with
    quantized := s.quantized ++ [⟨full_vector.elements.take 2⟩],
    dense := s.dense ++ [full_vector] }

/-- A store obtained from a sequence of `add` calls on a fresh store (this is
how every store is populated: directly by callers, or by `load_from_disk`). -/
def VectorStore.ofVectors (vs : List DenseVector) : VectorStore :=
  vs.foldl VectorStore.add VectorStore.new

/-- Model of `HashMap::get` on the association-list representation. -/
def alGet (m : List (ℕ × List ℕ)) (key : ℕ) : Option (List ℕ) :=
  (m.find? (fun p => p.1 == key)).map Prod.snd

/-- Model of `index.get_mut(&key)` followed by `bucket.push(v)` inside
`build_index` (src/store.rs): append `v` to the bucket stored under `key`;
like the `if let Some(bucket)` in the source, a missing key is a no-op. -/
def alPush (m : List (ℕ × List ℕ)) (key : ℕ) (v : ℕ) : List (ℕ × List ℕ) :=
  m.map (fun p => if p.1 == key then (p.1, p.2 ++ [v]) else p)

/-- Model of the assignment loop of `build_index` (src/store.rs): walk the
dense vectors with their enumeration index `i`, pushing each `i` into the
bucket of its nearest centroid.  The `none` branch models the panic of
`nearest_vector_index` on an empty centroid list. -/
def assignAll (cs : List DenseVector) :
    List (ℕ × List ℕ) → ℕ → List DenseVector → List (ℕ × List ℕ)
  | m, _, [] => m
  | m, i, v :: rest =>
    assignAll cs
      (match nearest_vector_index v cs with
       | some best => alPush m best i
       | none => m) (i + 1) rest

/-- Model of `VectorStore::build_index` (src/store.rs): train centroids with
`kmeans` (the random sample passed as `init`), create one empty bucket per
cluster id in `0..num_clusters`, assign every stored vector's handle to the
bucket of its nearest centroid, and store both results on the struct. -/
def build_index (init : List DenseVector) (s : VectorStore)
    (num_clusters max_iters : ℕ) : VectorStore :=
  let centroids := kmeans init s.dense num_clusters max_iters
  let index0 := (List.range num_clusters).map (fun i => (i, ([] : List ℕ)))
  let index := assignAll centroids index0 0 s.dense
  { s with centroids := some centroids, ivf_index := some index }

/-- Model of `SearchStrategy for BruteForceSearch` (src/store.rs): scan every
reduced-view vector against the 2-prefix of the query (`best_index` starts at
0, `best_distance` at `f32::MAX`, modelled as `none`; strict `<` keeps the
first winner on ties), then rescore the single winner against its
full-precision vector.  `Except.error` models the panic of
`store.dense[best_index]` when the index is out of bounds — which happens
exactly when the store is empty, since then the scan leaves `best_index = 0`
and `dense` has no entry 0. -/
def bfBest (store : VectorStore) (quant_query : QuantizedVector) : ℕ :=
  match minByFirst (store.quantized.map (fun v => v.distance quant_query)) with
  | none => 0
  | some (i, _) => i

/-- Model of `SearchStrategy for BruteForceSearch`, continued: the rescoring
step.  (`best_distance` is only ever used by the scan to choose `best_index`,
so `bfBest` carries just the index out of the loop.) -/
def bruteForceSearch (store : VectorStore) (query_vec : DenseVector) :
    Except String (Option (ℕ × ℚ)) :=
  let quant_query : QuantizedVector := ⟨query_vec.elements.take 2⟩
  match store.dense.get? (bfBest store quant_query) with
  | none => Except.error "index out of bounds"
  | some v => Except.ok (some (bfBest store quant_query, v.distance query_vec))

/-- Model of the candidate scan of `IVFSearch::search` (src/store.rs):
`best_distance` starts at `f32::MAX` and `best_index` at `usize::MAX`,
modelled together as `none`; `Except.error` models the panic of
`store.dense[idx]` on an out-of-range handle; returning `none` at the end
models the `best_index == usize::MAX` case (empty bucket). -/
def scanCandidates (dense : List DenseVector) (query_vec : DenseVector) :
    List ℕ → Option (ℕ × ℚ) → Except String (Option (ℕ × ℚ))
  | [], best => Except.ok best
  | idx :: rest, best =>
    match dense.get? idx with
    | none => Except.error "index out of bounds"
    | some v =>
      match best with
      | none => scanCandidates dense query_vec rest (some (idx, v.distance query_vec))
      | some (bi, bd) =>
        if v.distance query_vec < bd then
          scanCandidates dense query_vec rest (some (idx, v.distance query_vec))
        else scanCandidates dense query_vec rest (some (bi, bd))

/-- Model of `SearchStrategy for IVFSearch` (src/store.rs): `None` when the
index is not built; otherwise find the nearest centroid, look up its bucket
(`None` when absent), scan only that bucket's handles with exact distances,
and return the minimum (`None` when the bucket is empty).  The `Except.error`
branches model the panics on an empty centroid list and on out-of-range
handles. -/
def ivfSearch (store : VectorStore) (query_vec : DenseVector) :
    Except String (Option (ℕ × ℚ)) :=
  match store.centroids, store.ivf_index with
  | some cs, some idx =>
    (match nearest_vector_index query_vec cs with
     | none => Except.error "empty centroid list"
     | some best =>
       match alGet idx best with
       | none => Except.ok none
       | some candidate_indices =>
         scanCandidates store.dense query_vec candidate_indices none)
  | _, _ => Except.ok none

/-- Model of `VectorStore::save_to_disk` (src/store.rs).  The written file is
modelled at 4-byte granularity: `some (num_vectors, dim_size, data)` stands
for the 16-byte header (two little-endian `u64`s) followed by the
little-endian `f32` payload, one rational per 4-byte float; `none` means the
function returned `Ok(())` *without performing any file operation* (the
empty-store early return happens before `File::create`).  Every byte the
source writes or reads is a whole 4-byte float or 8-byte header field, so
this granularity loses nothing. -/
def save_to_disk (s : VectorStore) : Option (ℕ × ℕ × List ℚ) :=
  if s.dense.isEmpty then none
  else some (s.dense.length,
    ((s.dense.head?.map (fun v => v.elements.length)).getD 0),
    (s.dense.map DenseVector.elements).flatten)

/-- Model of the read loop of `VectorStore::load_from_disk` (src/store.rs):
read `n` vectors of `dim` floats each, front to back; `Except.error` models
the `read_exact` I/O error on a truncated payload.  `DenseVector::from_bytes`
is called by the source but not defined under src/; modelled from the spec
(§4.7: "reconstructing each as a full-precision vector" from
`dimension * 4` little-endian bytes) as taking the next `dim` floats. -/
def readVectors (dim : ℕ) : ℕ → List ℚ → Except String (List DenseVector)
  | 0, _ => Except.ok []
  | n + 1, data =>
    if data.length < dim then Except.error "failed to fill whole buffer"
    else
      match readVectors dim n (data.drop dim) with
      | Except.error e => Except.error e
      | Except.ok rest => Except.ok (⟨data.take dim⟩ :: rest)

/-- Model of `VectorStore::load_from_disk` (src/store.rs): read the header
`(num_vectors, dim_size)`, then the vectors, inserting each via the normal
`add` path into a fresh store. -/
def load_from_disk (file : ℕ × ℕ × List ℚ) : Except String VectorStore :=
  match readVectors file.2.1 file.1 file.2.2 with
  | Except.error e => Except.error e
  | Except.ok vs => Except.ok (VectorStore.ofVectors vs)

theorem foldl_add_dense (vs : List DenseVector) (s : VectorStore) :
    (vs.foldl VectorStore.add s).dense = s.dense ++ vs := by
  induction vs generalizing s with
  | nil => simp
  | cons v rest ih => simp [ih, VectorStore.add]

theorem foldl_add_quantized (vs : List DenseVector) (s : VectorStore) :
    (vs.foldl VectorStore.add s).quantized =
      s.quantized ++ vs.map (fun v => ⟨v.elements.take 2⟩) := by
  induction vs generalizing s with
  | nil => simp
  | cons v rest ih => simp [ih, VectorStore.add]

theorem foldl_add_ivf_index (vs : List DenseVector) (s : VectorStore) :
    (vs.foldl VectorStore.add s).ivf_index = s.ivf_index := by
  induction vs generalizing s with
  | nil => rfl
  | cons v rest ih => simp [ih, VectorStore.add]

theorem foldl_add_centroids (vs : List DenseVector) (s : VectorStore) :
    (vs.foldl VectorStore.add s).centroids = s.centroids := by
  induction vs generalizing s with
  | nil => rfl
  | cons v rest ih => simp [ih, VectorStore.add]

theorem ofVectors_dense (vs : List DenseVector) :
    (VectorStore.ofVectors vs).dense = vs := by
  simp [VectorStore.ofVectors, foldl_add_dense, VectorStore.new]

theorem ofVectors_quantized (vs : List DenseVector) :
    (VectorStore.ofVectors vs).quantized = vs.map (fun v => ⟨v.elements.take 2⟩) := by
  simp [VectorStore.ofVectors, foldl_add_quantized, VectorStore.new]

theorem ofVectors_ivf_index (vs : List DenseVector) :
    (VectorStore.ofVectors vs).ivf_index = none := by
  simp [VectorStore.ofVectors, foldl_add_ivf_index, VectorStore.new]

theorem ofVectors_centroids (vs : List DenseVector) :
    (VectorStore.ofVectors vs).centroids = none := by
  simp [VectorStore.ofVectors, foldl_add_centroids, VectorStore.new]

/-- Claim C7: after any sequence of `add` operations on a fresh store (which
is also how `load_from_disk` populates a store), the reduced and dense
containers have equal length, and every reduced entry is exactly the first
`min(2, len(dense[i]))` coordinates of the corresponding dense entry, with no
padding. -/
theorem add_reduced_view_invariant (vs : List DenseVector) :
    (VectorStore.ofVectors vs).quantized.length = (VectorStore.ofVectors vs).dense.length ∧
    ∀ i v, (VectorStore.ofVectors vs).dense.get? i = some v →
      (VectorStore.ofVectors vs).quantized.get? i = some ⟨v.elements.take 2⟩ ∧
      (v.elements.take 2).length = min 2 v.elements.length := by
  rw [ofVectors_dense, ofVectors_quantized]
  refine ⟨by simp, ?_⟩
  intro i v hv
  rw [List.get?_map, hv, Option.map_some']
  exact ⟨rfl, List.length_take 2 v.elements⟩

/-- Witness for `add_reduced_view_invariant`: a single added 3-dimensional
vector gets the reduced view `[1, 2]` of length `min 2 3`. -/
theorem add_reduced_view_invariant_witness :
    (VectorStore.ofVectors [⟨[1, 2, 3]⟩]).quantized.get? 0 = some ⟨[1, 2]⟩ ∧
      ((⟨[1, 2, 3]⟩ : DenseVector).elements.take 2).length =
        min 2 (⟨[1, 2, 3]⟩ : DenseVector).elements.length :=
  (add_reduced_view_invariant [⟨[1, 2, 3]⟩]).2 0 ⟨[1, 2, 3]⟩ rfl

/-- Claim C9: saving a store whose dense container is empty performs no file
operation at all (in this model `save_to_disk` returns `none`, meaning the
early `return Ok(())` fires before `File::create` touches the path; the
store argument is taken immutably, so the in-memory store is unchanged by
construction). -/
theorem save_empty_no_write (s : VectorStore) (h : s.dense = []) :
    save_to_disk s = none := by
  simp [save_to_disk, h]

/-- Witness for `save_empty_no_write` at the fresh empty store. -/
theorem save_empty_no_write_witness : save_to_disk VectorStore.new = none :=
  save_empty_no_write VectorStore.new rfl

/-- Claim C10: a BruteForce search against a store with zero stored vectors
does not return an absent result — the scan loop never runs, `best_index`
stays 0, and the rescoring step reads `dense[0]` out of bounds, a panic
(modelled by `Except.error`), never `Ok`. -/
theorem brute_force_empty_store_panics (q : DenseVector) :
    bruteForceSearch VectorStore.new q = Except.error "index out of bounds" ∧
      ∀ r : Option (ℕ × ℚ), bruteForceSearch VectorStore.new q ≠ Except.ok r := by
  refine ⟨rfl, ?_⟩
  intro r h
  rw [show bruteForceSearch VectorStore.new q = Except.error "index out of bounds" from
    rfl] at h
  exact Except.noConfusion h

/-- Claim C2: for every non-empty store satisfying the reduced-view invariant
(the invariant every store built through `add` has, see
`add_reduced_view_invariant`), BruteForce search returns
`Ok (some (handle, distance))` where the handle minimizes the reduced-view
(2-prefix) distance to the query's reduced view over all stored items, and
the returned distance is the exact full-precision distance between the query
and that single winner's dense vector (only that one candidate is
rescored). -/
theorem brute_force_search_correct (store : VectorStore) (q : DenseVector)
    (hwf : store.quantized = store.dense.map (fun v => ⟨v.elements.take 2⟩))
    (hne : store.dense ≠ []) :
    ∃ h d v, bruteForceSearch store q = Except.ok (some (h, d)) ∧
      store.dense.get? h = some v ∧ d = v.distance q ∧
      ∀ j w, store.dense.get? j = some w →
        euclidean_distance (v.elements.take 2) (q.elements.take 2) ≤
          euclidean_distance (w.elements.take 2) (q.elements.take 2) := by
  have hlne : store.quantized.map
      (fun v => v.distance (⟨q.elements.take 2⟩ : QuantizedVector)) ≠ [] := by
    rw [hwf]
    simpa using hne
  obtain ⟨i, d0, hm⟩ := minByFirst_ne_none _ hlne
  obtain ⟨hget, hmin, _⟩ := minByFirst_spec _ _ _ hm
  have hilt : i < store.dense.length := by
    have hl := minByFirst_lt_length _ _ _ hm
    rw [List.length_map, hwf, List.length_map] at hl
    exact hl
  have hv : store.dense.get? i = some (store.dense.get ⟨i, hilt⟩) :=
    List.get?_eq_get hilt
  have hbest : bfBest store ⟨q.elements.take 2⟩ = i := by
    simp only [bfBest, hm]
  have hrun : bruteForceSearch store q =
      Except.ok (some (i, (store.dense.get ⟨i, hilt⟩).distance q)) := by
    simp only [bruteForceSearch, hbest, hv]
  refine ⟨i, (store.dense.get ⟨i, hilt⟩).distance q, store.dense.get ⟨i, hilt⟩,
    hrun, hv, rfl, ?_⟩
  intro j w hw
  have hqi : store.quantized.get? i =
      some ⟨(store.dense.get ⟨i, hilt⟩).elements.take 2⟩ := by
    rw [hwf, List.get?_map, hv, Option.map_some']
  have hli : (store.quantized.map
      (fun u => u.distance (⟨q.elements.take 2⟩ : QuantizedVector))).get? i =
      some (QuantizedVector.distance ⟨(store.dense.get ⟨i, hilt⟩).elements.take 2⟩
        ⟨q.elements.take 2⟩) := by
    rw [List.get?_map, hqi, Option.map_some']
  have hd0 : d0 = QuantizedVector.distance
      ⟨(store.dense.get ⟨i, hilt⟩).elements.take 2⟩ ⟨q.elements.take 2⟩ := by
    rw [hget] at hli
    exact Option.some.inj hli
  have hqj : store.quantized.get? j = some ⟨w.elements.take 2⟩ := by
    rw [hwf, List.get?_map, hw, Option.map_some']
  have hlj : (store.quantized.map
      (fun u => u.distance (⟨q.elements.take 2⟩ : QuantizedVector))).get? j =
      some (QuantizedVector.distance ⟨w.elements.take 2⟩ ⟨q.elements.take 2⟩) := by
    rw [List.get?_map, hqj, Option.map_some']
  have hle := hmin j _ hlj
  rw [hd0] at hle
  simpa [QuantizedVector.distance] using hle

/-- Witness for `brute_force_search_correct`: the spec's concrete scenario 1
— store `[[1,1,1,1], [10,10,10,10]]`, query `[1,1,1,1]` — returns handle 0
with the exact (squared) distance 0, minimal among all reduced views. -/
theorem brute_force_search_correct_witness :
    ∃ h d v, bruteForceSearch
        (VectorStore.ofVectors [⟨[1, 1, 1, 1]⟩, ⟨[10, 10, 10, 10]⟩]) ⟨[1, 1, 1, 1]⟩ =
        Except.ok (some (h, d)) ∧
      (VectorStore.ofVectors [⟨[1, 1, 1, 1]⟩, ⟨[10, 10, 10, 10]⟩]).dense.get? h = some v ∧
      d = v.distance ⟨[1, 1, 1, 1]⟩ ∧
      ∀ j w, (VectorStore.ofVectors
          [⟨[1, 1, 1, 1]⟩, ⟨[10, 10, 10, 10]⟩]).dense.get? j = some w →
        euclidean_distance (v.elements.take 2) ((⟨[1, 1, 1, 1]⟩ : DenseVector).elements.take 2) ≤
          euclidean_distance (w.elements.take 2) ((⟨[1, 1, 1, 1]⟩ : DenseVector).elements.take 2) :=
  brute_force_search_correct (VectorStore.ofVectors [⟨[1, 1, 1, 1]⟩, ⟨[10, 10, 10, 10]⟩])
    ⟨[1, 1, 1, 1]⟩ (ofVectors_quantized _) (by rw [ofVectors_dense]; exact List.cons_ne_nil _ _)

theorem readVectors_flatten (d : ℕ) (vs : List DenseVector)
    (hdim : ∀ v ∈ vs, v.elements.length = d) :
    readVectors d vs.length ((vs.map DenseVector.elements).flatten) = Except.ok vs := by
  induction vs with
  | nil => rfl
  | cons v rest ih =>
    have hv : v.elements.length = d := hdim v (List.mem_cons_self v rest)
    have hrest : ∀ u ∈ rest, u.elements.length = d := fun u hu =>
      hdim u (List.mem_cons_of_mem v hu)
    simp only [List.length_cons, List.map_cons, List.flatten_cons, readVectors]
    rw [if_neg (by simp [← hv])]
    rw [← hv, List.drop_left, List.take_left, hv, ih hrest]

/-- Claim C4: for every non-empty store whose dense vectors all share the
dimension of the first vector (the store invariant of the spec data model:
D is fixed once the first vector is added), saving and re-loading yields a
store whose dense sequence equals the original element-wise and in order
(modelled at 4-byte float granularity: the header carries the count and the
per-vector dimension, the payload is the concatenated coordinates); reduced
views are rebuilt by the normal `add` path and the loaded store carries no
index. -/
theorem save_load_roundtrip (s : VectorStore) (hne : s.dense ≠ [])
    (hdim : ∀ v ∈ s.dense, v.elements.length =
      ((s.dense.head?.map (fun w => w.elements.length)).getD 0)) :
    ∃ f s2, save_to_disk s = some f ∧ load_from_disk f = Except.ok s2 ∧
      s2.dense = s.dense ∧
      s2.quantized = s.dense.map (fun v => ⟨v.elements.take 2⟩) ∧
      s2.ivf_index = none ∧ s2.centroids = none := by
  refine ⟨(s.dense.length, ((s.dense.head?.map (fun w => w.elements.length)).getD 0),
    (s.dense.map DenseVector.elements).flatten), VectorStore.ofVectors s.dense, ?_, ?_, ?_, ?_, ?_, ?_⟩
  · simp [save_to_disk, hne]
  · simp only [load_from_disk]
    rw [readVectors_flatten _ _ hdim]
  · exact ofVectors_dense s.dense
  · exact ofVectors_quantized s.dense
  · exact ofVectors_ivf_index s.dense
  · exact ofVectors_centroids s.dense

/-- Witness for `save_load_roundtrip`: the repository's own round-trip test
data, two 3-dimensional vectors. -/
theorem save_load_roundtrip_witness :
    ∃ f s2, save_to_disk (VectorStore.ofVectors [⟨[1, 2, 3]⟩, ⟨[4, 5, 6]⟩]) = some f ∧
      load_from_disk f = Except.ok s2 ∧
      s2.dense = (VectorStore.ofVectors [⟨[1, 2, 3]⟩, ⟨[4, 5, 6]⟩]).dense ∧
      s2.quantized = (VectorStore.ofVectors [⟨[1, 2, 3]⟩, ⟨[4, 5, 6]⟩]).dense.map
        (fun v => ⟨v.elements.take 2⟩) ∧
      s2.ivf_index = none ∧ s2.centroids = none :=
  save_load_roundtrip (VectorStore.ofVectors [⟨[1, 2, 3]⟩, ⟨[4, 5, 6]⟩])
    (by rw [ofVectors_dense]; exact List.cons_ne_nil _ _)
    (by
      rw [ofVectors_dense]
      intro v hv
      rcases List.mem_cons.mp hv with rfl | hv2
      · rfl
      · rcases List.mem_cons.mp hv2 with rfl | hv3
        · rfl
        · simp at hv3)

theorem alGet_cons (k0 : ℕ) (b0 : List ℕ) (rest : List (ℕ × List ℕ)) (c : ℕ) :
    alGet ((k0, b0) :: rest) c = if k0 = c then some b0 else alGet rest c := by
  by_cases h : k0 = c
  · have h2 : (k0 == c) = true := by simp [h]
    simp [alGet, List.find?, h2, h]
  · have h2 : (k0 == c) = false := by simp [h]
    simp [alGet, List.find?, h2, h]

theorem alPush_cons (k0 : ℕ) (b0 : List ℕ) (m : List (ℕ × List ℕ)) (key v : ℕ) :
    alPush ((k0, b0) :: m) key v =
      (if k0 = key then (k0, b0 ++ [v]) else (k0, b0)) :: alPush m key v := by
  by_cases h : k0 = key
  · have h2 : (k0 == key) = true := by simp [h]
    simp [alPush, h2, h]
  · have h2 : (k0 == key) = false := by simp [h]
    simp [alPush, h2, h]

theorem alGet_alPush (m : List (ℕ × List ℕ)) (key v c : ℕ) :
    alGet (alPush m key v) c =
      (alGet m c).map (fun b => if c = key then b ++ [v] else b) := by
  induction m with
  | nil => rfl
  | cons p m ih =>
    obtain ⟨k0, b0⟩ := p
    rw [alPush_cons]
    by_cases hk : k0 = key
    · rw [if_pos hk, alGet_cons, alGet_cons]
      by_cases hc : k0 = c
      · rw [if_pos hc, if_pos hc]
        have hck : c = key := by omega
        simp [hck]
      · rw [if_neg hc, if_neg hc]
        exact ih
    · rw [if_neg hk, alGet_cons, alGet_cons]
      by_cases hc : k0 = c
      · rw [if_pos hc, if_pos hc]
        have hck : ¬ c = key := by omega
        simp [hck]
      · rw [if_neg hc, if_neg hc]
        exact ih

theorem alGet_init (k c : ℕ) :
    alGet ((List.range k).map (fun i => (i, ([] : List ℕ)))) c =
      if c < k then some [] else none := by
  induction k with
  | zero => simp [alGet]
  | succ k ih =>
    simp only [alGet] at ih ⊢
    rw [List.range_succ, List.map_append, List.find?_append]
    cases hfind : List.find? (fun p => p.1 == c)
        ((List.range k).map (fun i => (i, ([] : List ℕ)))) with
    | none =>
      rw [hfind] at ih
      simp only [Option.map_none'] at ih
      have hck : ¬ c < k := by
        intro hc
        rw [if_pos hc] at ih
        exact Option.noConfusion ih
      by_cases hek : k = c
      · have h2 : (k == c) = true := by simp [hek]
        rw [if_pos (by omega : c < k + 1)]
        simp [Option.or, List.find?, h2]
      · have h2 : (k == c) = false := by simp [hek]
        rw [if_neg (by omega : ¬ c < k + 1)]
        simp [Option.or, List.find?, h2]
    | some e =>
      rw [hfind] at ih
      simp only [Option.map_some'] at ih
      have hck : c < k := by
        by_contra hc
        rw [if_neg hc] at ih
        exact Option.noConfusion ih
      rw [if_pos hck] at ih
      simp only [Option.or, Option.map_some']
      rw [if_pos (by omega)]
      exact ih

/-- Specification-side description of the bucket that the assignment loop of
`build_index` builds for cluster `c`: the handles (starting at offset `i`) of
the vectors whose nearest centroid is `c`, in order. -/
def bucketSpec (cs : List DenseVector) (c : ℕ) : ℕ → List DenseVector → List ℕ
  | _, [] => []
  | i, v :: rest =>
    (if nearest_vector_index v cs = some c then [i] else []) ++
      bucketSpec cs c (i + 1) rest

theorem alGet_assignAll (cs : List DenseVector) (l : List DenseVector) :
    ∀ (m : List (ℕ × List ℕ)) (i c : ℕ),
      alGet (assignAll cs m i l) c =
        (alGet m c).map (fun b => b ++ bucketSpec cs c i l) := by
  induction l with
  | nil =>
    intro m i c
    simp only [assignAll, bucketSpec]
    cases h : alGet m c <;> simp [h]
  | cons v rest ih =>
    intro m i c
    simp only [assignAll, bucketSpec]
    cases hn : nearest_vector_index v cs with
    | none =>
      rw [ih]
      have : ¬ (none : Option ℕ) = some c := fun h => Option.noConfusion h
      rw [if_neg this]
      simp
    | some best =>
      rw [ih, alGet_alPush]
      by_cases hbc : best = c
      · subst hbc
        cases h : alGet m best <;> simp [h]
      · cases h : alGet m c <;> simp [h, hbc, Ne.symm hbc]

theorem mem_bucketSpec (cs : List DenseVector) (c : ℕ) (l : List DenseVector) :
    ∀ (i h : ℕ), (h ∈ bucketSpec cs c i l ↔
      ∃ j v, l.get? j = some v ∧ h = i + j ∧
        nearest_vector_index v cs = some c) := by
  induction l with
  | nil =>
    intro i h
    simp [bucketSpec]
  | cons v rest ih =>
    intro i h
    simp only [bucketSpec, List.mem_append]
    constructor
    · intro hmem
      rcases hmem with hmem | hmem
      · by_cases hn : nearest_vector_index v cs = some c
        · rw [if_pos hn] at hmem
          simp only [List.mem_singleton] at hmem
          subst hmem
          exact ⟨0, v, rfl, by omega, hn⟩
        · rw [if_neg hn] at hmem
          simp at hmem
      · obtain ⟨j, w, hw, hh, hnw⟩ := (ih (i + 1) h).mp hmem
        exact ⟨j + 1, w, by simpa using hw, by omega, hnw⟩
    · rintro ⟨j, w, hw, hh, hnw⟩
      cases j with
      | zero =>
        left
        simp only [List.get?, Option.some.injEq] at hw
        rw [if_pos (hw ▸ hnw)]
        simp only [List.mem_singleton]
        omega
      | succ j =>
        right
        exact (ih (i + 1) h).mpr ⟨j, w, by simpa using hw, by omega, hnw⟩

theorem kmeansAssign_length (vectors : List DenseVector) (k : ℕ)
    (cs : List DenseVector) : (kmeansAssign vectors k cs).length = k := by
  suffices hgen : ∀ (l : List DenseVector) (acc : List (List DenseVector)),
      (l.foldl (fun clusters v =>
        match closestIndex cs v with
        | some i => clusters.set i (clusters.getD i [] ++ [v])
        | none => clusters) acc).length = acc.length by
    simpa [kmeansAssign] using hgen vectors (List.replicate k [])
  intro l
  induction l with
  | nil => intro acc; rfl
  | cons v rest ihl =>
    intro acc
    rw [List.foldl_cons, ihl]
    cases closestIndex cs v <;> simp

theorem kmeansUpdate_length (cs : List DenseVector)
    (clusters : List (List DenseVector)) :
    (kmeansUpdate cs clusters).length = clusters.length :=
  List.length_map _ _

theorem kmeans_length (init vectors : List DenseVector) (k m : ℕ)
    (h : init.length = k) : (kmeans init vectors k m).length = k := by
  suffices hgen : ∀ (n : ℕ) (cs : List DenseVector), cs.length = k →
      (kmeansLoop vectors k n cs).length = k from hgen m init h
  intro n
  induction n with
  | zero => intro cs hcs; exact hcs
  | succ n ihn =>
    intro cs hcs
    simp only [kmeansLoop]
    exact ihn _ (by rw [kmeansUpdate_length, kmeansAssign_length])

theorem nearest_vector_index_some_lt (q : DenseVector) (cs : List DenseVector)
    (j : ℕ) (h : nearest_vector_index q cs = some j) : j < cs.length := by
  simp only [nearest_vector_index, Option.map_eq_some'] at h
  obtain ⟨⟨i, d⟩, hm, hfst⟩ := h
  simp only at hfst
  subst hfst
  have := minByFirst_lt_length _ _ _ hm
  simpa using this

theorem nearest_vector_index_exists (q : DenseVector) (cs : List DenseVector)
    (hne : cs ≠ []) : ∃ j, nearest_vector_index q cs = some j := by
  have hmapne : cs.map (fun c => q.distance c) ≠ [] := by simpa using hne
  obtain ⟨i, d, hm⟩ := minByFirst_ne_none _ hmapne
  exact ⟨i, by simp [nearest_vector_index, hm]⟩

theorem build_index_centroids (init : List DenseVector) (s : VectorStore)
    (k m : ℕ) :
    (build_index init s k m).centroids = some (kmeans init s.dense k m) := rfl

theorem build_index_ivf (init : List DenseVector) (s : VectorStore) (k m : ℕ) :
    (build_index init s k m).ivf_index =
      some (assignAll (kmeans init s.dense k m)
        ((List.range k).map (fun i => (i, ([] : List ℕ)))) 0 s.dense) := rfl

/-- Claim C5: after `build_index(k, max_iters)` on a store with `n` stored
vectors and `1 ≤ k ≤ n` (with the sampled initial centroids of length `k`,
the `choose_multiple` contract for `k ≤ n`), the resulting index has a bucket
for exactly the cluster ids `0..k` (a bucket may be empty — nothing requires
the buckets non-empty), each handle lies in the bucket of its nearest
centroid, and every handle in `0..n` appears in exactly one bucket. -/
theorem build_index_partition (store : VectorStore) (init : List DenseVector)
    (k m : ℕ) (hk : 1 ≤ k) (hkn : k ≤ store.dense.length)
    (hinit : init.length = k) :
    ∃ cs idx, (build_index init store k m).centroids = some cs ∧
      (build_index init store k m).ivf_index = some idx ∧
      cs.length = k ∧
      (∀ c, (∃ b, alGet idx c = some b) ↔ c < k) ∧
      (∀ c b, alGet idx c = some b → ∀ h, (h ∈ b ↔
        ∃ v, store.dense.get? h = some v ∧ nearest_vector_index v cs = some c)) ∧
      (∀ h, h < store.dense.length →
        ∃! c, ∃ b, alGet idx c = some b ∧ h ∈ b) := by
  refine ⟨kmeans init store.dense k m,
    assignAll (kmeans init store.dense k m)
      ((List.range k).map (fun i => (i, ([] : List ℕ)))) 0 store.dense,
    build_index_centroids init store k m, build_index_ivf init store k m,
    kmeans_length init store.dense k m hinit, ?_, ?_, ?_⟩
  all_goals
    have hcslen : (kmeans init store.dense k m).length = k :=
      kmeans_length init store.dense k m hinit
  all_goals
    have hkey : ∀ c, alGet (assignAll (kmeans init store.dense k m)
        ((List.range k).map (fun i => (i, ([] : List ℕ)))) 0 store.dense) c =
        if c < k then some (bucketSpec (kmeans init store.dense k m) c 0 store.dense)
        else none := by
      intro c
      rw [alGet_assignAll, alGet_init]
      by_cases hc : c < k
      · rw [if_pos hc, if_pos hc]
        simp
      · rw [if_neg hc, if_neg hc]
        rfl
  all_goals
    have hmem : ∀ c b, alGet (assignAll (kmeans init store.dense k m)
        ((List.range k).map (fun i => (i, ([] : List ℕ)))) 0 store.dense) c =
          some b →
        ∀ h, (h ∈ b ↔ ∃ v, store.dense.get? h = some v ∧
          nearest_vector_index v (kmeans init store.dense k m) = some c) := by
      intro c b hb h
      rw [hkey c] at hb
      by_cases hc : c < k
      · rw [if_pos hc] at hb
        have hbeq : b = bucketSpec (kmeans init store.dense k m) c 0 store.dense :=
          (Option.some.inj hb).symm
        subst hbeq
        rw [mem_bucketSpec]
        constructor
        · rintro ⟨j, v, hv, hh, hn⟩
          have hjh : j = h := by omega
          subst hjh
          exact ⟨v, hv, hn⟩
        · rintro ⟨v, hv, hn⟩
          exact ⟨h, v, hv, by omega, hn⟩
      · rw [if_neg hc] at hb
        exact Option.noConfusion hb
  · intro c
    constructor
    · rintro ⟨b, hb⟩
      by_contra hc
      rw [hkey c, if_neg hc] at hb
      exact Option.noConfusion hb
    · intro hc
      exact ⟨bucketSpec (kmeans init store.dense k m) c 0 store.dense,
        by rw [hkey c, if_pos hc]⟩
  · exact hmem
  · intro h hlt
    have hcsne : kmeans init store.dense k m ≠ [] := by
      intro hnil
      rw [hnil] at hcslen
      simp at hcslen
      omega
    have hv : store.dense.get? h = some (store.dense.get ⟨h, hlt⟩) :=
      List.get?_eq_get hlt
    obtain ⟨c0, hc0⟩ :=
      nearest_vector_index_exists (store.dense.get ⟨h, hlt⟩) _ hcsne
    have hc0k : c0 < k := by
      have := nearest_vector_index_some_lt _ _ _ hc0
      omega
    refine ⟨c0, ⟨bucketSpec (kmeans init store.dense k m) c0 0 store.dense,
      by rw [hkey c0, if_pos hc0k], ?_⟩, ?_⟩
    · exact (hmem c0 _ (by rw [hkey c0, if_pos hc0k]) h).mpr
        ⟨store.dense.get ⟨h, hlt⟩, hv, hc0⟩
    · rintro c1 ⟨b1, hb1, hmemb1⟩
      obtain ⟨v1, hv1, hn1⟩ := (hmem c1 b1 hb1 h).mp hmemb1
      rw [hv] at hv1
      have hveq : v1 = store.dense.get ⟨h, hlt⟩ := Option.some.inj hv1.symm
      rw [hveq] at hn1
      rw [hc0] at hn1
      exact (Option.some.inj hn1).symm

/-- Witness for `build_index_partition`: two stored 1-dimensional vectors,
`k = 2`, one iteration, sampled initial centroids equal to the two vectors. -/
theorem build_index_partition_witness :
    ∃ cs idx, (build_index [⟨[0]⟩, ⟨[10]⟩]
        (VectorStore.mk [⟨[0]⟩, ⟨[10]⟩] [] none none) 2 1).centroids = some cs ∧
      (build_index [⟨[0]⟩, ⟨[10]⟩]
        (VectorStore.mk [⟨[0]⟩, ⟨[10]⟩] [] none none) 2 1).ivf_index = some idx ∧
      cs.length = 2 ∧
      (∀ c, (∃ b, alGet idx c = some b) ↔ c < 2) ∧
      (∀ c b, alGet idx c = some b → ∀ h, (h ∈ b ↔
        ∃ v, (VectorStore.mk [⟨[0]⟩, ⟨[10]⟩] [] none none).dense.get? h = some v ∧
          nearest_vector_index v cs = some c)) ∧
      (∀ h, h < (VectorStore.mk [⟨[0]⟩, ⟨[10]⟩] [] none none).dense.length →
        ∃! c, ∃ b, alGet idx c = some b ∧ h ∈ b) :=
  build_index_partition (VectorStore.mk [⟨[0]⟩, ⟨[10]⟩] [] none none)
    [⟨[0]⟩, ⟨[10]⟩] 2 1 (by decide) (by decide) (by decide)

theorem scanCandidates_cons_none (dense : List DenseVector) (q : DenseVector)
    (idx : ℕ) (rest : List ℕ) (v : DenseVector)
    (hv : dense.get? idx = some v) :
    scanCandidates dense q (idx :: rest) none =
      scanCandidates dense q rest (some (idx, v.distance q)) := by
  simp only [scanCandidates, hv]

theorem scanCandidates_cons_some (dense : List DenseVector) (q : DenseVector)
    (idx : ℕ) (rest : List ℕ) (bi : ℕ) (bd : ℚ) (v : DenseVector)
    (hv : dense.get? idx = some v) :
    scanCandidates dense q (idx :: rest) (some (bi, bd)) =
      if v.distance q < bd then
        scanCandidates dense q rest (some (idx, v.distance q))
      else scanCandidates dense q rest (some (bi, bd)) := by
  simp only [scanCandidates, hv]

theorem scanCandidates_spec (dense : List DenseVector) (q : DenseVector) :
    ∀ (l : List ℕ) (best : Option (ℕ × ℚ)),
      (∀ i ∈ l, i < dense.length) →
      ∃ r, scanCandidates dense q l best = Except.ok r ∧
        (r = none ↔ (l = [] ∧ best = none)) ∧
        (∀ h d, r = some (h, d) →
          (best = some (h, d) ∨
            (h ∈ l ∧ ∃ v, dense.get? h = some v ∧ d = v.distance q)) ∧
          (∀ bi bd, best = some (bi, bd) → d ≤ bd) ∧
          (∀ i v, i ∈ l → dense.get? i = some v → d ≤ v.distance q)) := by
  intro l
  induction l with
  | nil =>
    intro best hrange
    refine ⟨best, rfl, by cases best <;> simp, ?_⟩
    intro h d hr
    subst hr
    refine ⟨Or.inl rfl, ?_, ?_⟩
    · intro bi bd hb
      exact le_of_eq (Prod.mk.injEq _ _ _ _ ▸ Option.some.inj hb).2
    · intro i v hi hv
      simp at hi
  | cons idx rest ih =>
    intro best hrange
    have hidx : idx < dense.length := hrange idx (List.mem_cons_self idx rest)
    have hvex : dense.get? idx = some (dense.get ⟨idx, hidx⟩) :=
      List.get?_eq_get hidx
    have hrest : ∀ i ∈ rest, i < dense.length := fun i hi =>
      hrange i (List.mem_cons_of_mem idx hi)
    cases best with
    | none =>
      rw [scanCandidates_cons_none dense q idx rest _ hvex]
      obtain ⟨r, hr, hnone, hsome⟩ :=
        ih (some (idx, (dense.get ⟨idx, hidx⟩).distance q)) hrest
      refine ⟨r, hr, ?_, ?_⟩
      · constructor
        · intro h0
          exact absurd (hnone.mp h0).2 (by simp)
        · rintro ⟨h1, h2⟩
          exact absurd h1 (by simp)
      · intro h d hr2
        obtain ⟨horig, hbestle, hallle⟩ := hsome h d hr2
        refine ⟨?_, ?_, ?_⟩
        · right
          rcases horig with heq | ⟨hmem, hv2⟩
          · obtain ⟨h1, h2⟩ := Prod.mk.injEq _ _ _ _ ▸ Option.some.inj heq
            exact ⟨h1 ▸ List.mem_cons_self idx rest,
              dense.get ⟨idx, hidx⟩, h1 ▸ hvex, h2.symm⟩
          · exact ⟨List.mem_cons_of_mem idx hmem, hv2⟩
        · intro bi bd hb
          exact Option.noConfusion hb
        · intro i w hi hw
          rcases List.mem_cons.mp hi with rfl | hi2
          · have hle : d ≤ (dense.get ⟨i, hidx⟩).distance q :=
              hbestle i ((dense.get ⟨i, hidx⟩).distance q) rfl
            rw [hvex] at hw
            rw [← Option.some.inj hw]
            exact hle
          · exact hallle i w hi2 hw
    | some p =>
      obtain ⟨bi, bd⟩ := p
      rw [scanCandidates_cons_some dense q idx rest bi bd _ hvex]
      by_cases hlt : (dense.get ⟨idx, hidx⟩).distance q < bd
      · rw [if_pos hlt]
        obtain ⟨r, hr, hnone, hsome⟩ :=
          ih (some (idx, (dense.get ⟨idx, hidx⟩).distance q)) hrest
        refine ⟨r, hr, ?_, ?_⟩
        · constructor
          · intro h0
            exact absurd (hnone.mp h0).2 (by simp)
          · rintro ⟨h1, h2⟩
            exact absurd h1 (by simp)
        · intro h d hr2
          obtain ⟨horig, hbestle, hallle⟩ := hsome h d hr2
          refine ⟨?_, ?_, ?_⟩
          · right
            rcases horig with heq | ⟨hmem, hv2⟩
            · obtain ⟨h1, h2⟩ := Prod.mk.injEq _ _ _ _ ▸ Option.some.inj heq
              exact ⟨h1 ▸ List.mem_cons_self idx rest,
                dense.get ⟨idx, hidx⟩, h1 ▸ hvex, h2.symm⟩
            · exact ⟨List.mem_cons_of_mem idx hmem, hv2⟩
          · intro bi2 bd2 hb
            obtain ⟨h1, h2⟩ := Prod.mk.injEq _ _ _ _ ▸ Option.some.inj hb
            have hle : d ≤ (dense.get ⟨idx, hidx⟩).distance q :=
              hbestle idx ((dense.get ⟨idx, hidx⟩).distance q) rfl
            rw [← h2]
            exact le_of_lt (lt_of_le_of_lt hle hlt)
          · intro i w hi hw
            rcases List.mem_cons.mp hi with rfl | hi2
            · have hle : d ≤ (dense.get ⟨i, hidx⟩).distance q :=
                hbestle i ((dense.get ⟨i, hidx⟩).distance q) rfl
              rw [hvex] at hw
              rw [← Option.some.inj hw]
              exact hle
            · exact hallle i w hi2 hw
      · rw [if_neg hlt]
        obtain ⟨r, hr, hnone, hsome⟩ := ih (some (bi, bd)) hrest
        refine ⟨r, hr, ?_, ?_⟩
        · constructor
          · intro h0
            exact absurd (hnone.mp h0).2 (by simp)
          · rintro ⟨h1, h2⟩
            exact absurd h1 (by simp)
        · intro h d hr2
          obtain ⟨horig, hbestle, hallle⟩ := hsome h d hr2
          refine ⟨?_, ?_, ?_⟩
          · rcases horig with heq | ⟨hmem, hv2⟩
            · exact Or.inl heq
            · exact Or.inr ⟨List.mem_cons_of_mem idx hmem, hv2⟩
          · intro bi2 bd2 hb
            obtain ⟨h1, h2⟩ := Prod.mk.injEq _ _ _ _ ▸ Option.some.inj hb
            rw [← h2]
            exact hbestle bi bd rfl
          · intro i w hi hw
            rcases List.mem_cons.mp hi with rfl | hi2
            · have hle : d ≤ bd := hbestle bi bd rfl
              have hge : bd ≤ (dense.get ⟨i, hidx⟩).distance q := not_lt.mp hlt
              rw [hvex] at hw
              rw [← Option.some.inj hw]
              exact le_trans hle hge
            · exact hallle i w hi2 hw

theorem ivfSearch_not_built (store : VectorStore) (q : DenseVector)
    (h : store.centroids = none ∨ store.ivf_index = none) :
    ivfSearch store q = Except.ok none := by
  rcases h with h | h
  · cases hi : store.ivf_index <;> simp only [ivfSearch, h, hi]
  · cases hc : store.centroids <;> simp only [ivfSearch, hc, h]

theorem ivfSearch_built (store : VectorStore) (q : DenseVector)
    (cs : List DenseVector) (idx : List (ℕ × List ℕ))
    (hc : store.centroids = some cs) (hi : store.ivf_index = some idx) :
    ivfSearch store q =
      (match nearest_vector_index q cs with
       | none => Except.error "empty centroid list"
       | some best =>
         match alGet idx best with
         | none => Except.ok none
         | some candidate_indices =>
           scanCandidates store.dense q candidate_indices none) := by
  simp only [ivfSearch, hc, hi]

/-- Claim C3: for every store satisfying the index invariants of the data
model (bucket handles in range — established by `build_index`, see
`build_index_partition` — and centroids, when present, non-empty) and every
query, IVF search never panics and returns `none` exactly when the index is
not built (centroids or buckets absent) or the bucket of the query's nearest
centroid is absent or empty; otherwise it returns `some (handle, distance)`
where the handle minimizes the exact full-precision distance to the query
among exactly the handles of that one bucket and the distance is that
handle's exact distance.  The search takes the store immutably, so the store
is never mutated (the model is a pure function of the store). -/
theorem ivf_search_correct (store : VectorStore) (q : DenseVector)
    (hidx : ∀ idx, store.ivf_index = some idx →
      ∀ c b, alGet idx c = some b → ∀ h ∈ b, h < store.dense.length)
    (hcs : ∀ cs, store.centroids = some cs → cs ≠ []) :
    ∃ r, ivfSearch store q = Except.ok r ∧
      ((r = none) ↔ (store.centroids = none ∨ store.ivf_index = none ∨
        (∃ cs idx best, store.centroids = some cs ∧ store.ivf_index = some idx ∧
          nearest_vector_index q cs = some best ∧
          (alGet idx best = none ∨ alGet idx best = some [])))) ∧
      (∀ h d, r = some (h, d) →
        ∃ cs idx best bucket v, store.centroids = some cs ∧
          store.ivf_index = some idx ∧
          nearest_vector_index q cs = some best ∧
          alGet idx best = some bucket ∧
          h ∈ bucket ∧ store.dense.get? h = some v ∧ d = v.distance q ∧
          ∀ h2 w, h2 ∈ bucket → store.dense.get? h2 = some w →
            d ≤ w.distance q) := by
  cases hc : store.centroids with
  | none =>
    refine ⟨none, ivfSearch_not_built store q (Or.inl hc), ?_, ?_⟩
    · simp [hc]
    · intro h d habs
      exact Option.noConfusion habs
  | some cs =>
    cases hi : store.ivf_index with
    | none =>
      refine ⟨none, ivfSearch_not_built store q (Or.inr hi), ?_, ?_⟩
      · simp [hi]
      · intro h d habs
        exact Option.noConfusion habs
    | some idx =>
      have hcsne : cs ≠ [] := hcs cs hc
      obtain ⟨best, hbest⟩ := nearest_vector_index_exists q cs hcsne
      cases hbucket : alGet idx best with
      | none =>
        refine ⟨none, ?_, ?_, ?_⟩
        · rw [ivfSearch_built store q cs idx hc hi, hbest]
          simp only [hbucket]
        · constructor
          · intro _
            exact Or.inr (Or.inr ⟨cs, idx, best, rfl, rfl, hbest, Or.inl hbucket⟩)
          · intro _
            rfl
        · intro h d habs
          exact Option.noConfusion habs
      | some bucket =>
        have hrange : ∀ i ∈ bucket, i < store.dense.length :=
          hidx idx hi best bucket hbucket
        obtain ⟨r, hscan, hnone, hsome⟩ :=
          scanCandidates_spec store.dense q bucket none hrange
        refine ⟨r, ?_, ?_, ?_⟩
        · rw [ivfSearch_built store q cs idx hc hi, hbest]
          simp only [hbucket]
          exact hscan
        · rw [hnone]
          constructor
          · rintro ⟨hb, _⟩
            exact Or.inr (Or.inr ⟨cs, idx, best, rfl, rfl, hbest,
              Or.inr (hb ▸ hbucket)⟩)
          · rintro (h1 | h2 | ⟨cs2, idx2, best2, hcs2, hidx2, hbest2, habs⟩)
            · exact Option.noConfusion h1
            · exact Option.noConfusion h2
            · have hcseq : cs = cs2 := Option.some.inj hcs2
              have hidxeq : idx = idx2 := Option.some.inj hidx2
              rw [← hcseq] at hbest2
              rw [hbest] at hbest2
              have hbesteq : best = best2 := Option.some.inj hbest2
              rw [← hidxeq, ← hbesteq, hbucket] at habs
              rcases habs with habs | habs
              · exact Option.noConfusion habs
              · exact ⟨Option.some.inj habs, rfl⟩
        · intro h d hr
          obtain ⟨horig, _, hallle⟩ := hsome h d hr
          rcases horig with habs | ⟨hmem, v, hv, hd⟩
          · exact Option.noConfusion habs
          · exact ⟨cs, idx, best, bucket, v, rfl, rfl, hbest, hbucket, hmem,
              hv, hd, hallle⟩

/-- Witness for `ivf_search_correct`: a store with one stored vector `[0]`,
one centroid `[0]` and the single bucket `0 ↦ [0]`, queried with `[1]`. -/
theorem ivf_search_correct_witness :
    ∃ r, ivfSearch (VectorStore.mk [⟨[0]⟩] [] (some [(0, [0])]) (some [⟨[0]⟩]))
        ⟨[1]⟩ = Except.ok r ∧
      ((r = none) ↔
        ((VectorStore.mk [⟨[0]⟩] [] (some [(0, [0])]) (some [⟨[0]⟩])).centroids = none ∨
        (VectorStore.mk [⟨[0]⟩] [] (some [(0, [0])]) (some [⟨[0]⟩])).ivf_index = none ∨
        (∃ cs idx best,
          (VectorStore.mk [⟨[0]⟩] [] (some [(0, [0])]) (some [⟨[0]⟩])).centroids = some cs ∧
          (VectorStore.mk [⟨[0]⟩] [] (some [(0, [0])]) (some [⟨[0]⟩])).ivf_index = some idx ∧
          nearest_vector_index ⟨[1]⟩ cs = some best ∧
          (alGet idx best = none ∨ alGet idx best = some [])))) ∧
      (∀ h d, r = some (h, d) →
        ∃ cs idx best bucket v,
          (VectorStore.mk [⟨[0]⟩] [] (some [(0, [0])]) (some [⟨[0]⟩])).centroids = some cs ∧
          (VectorStore.mk [⟨[0]⟩] [] (some [(0, [0])]) (some [⟨[0]⟩])).ivf_index = some idx ∧
          nearest_vector_index ⟨[1]⟩ cs = some best ∧
          alGet idx best = some bucket ∧
          h ∈ bucket ∧
          (VectorStore.mk [⟨[0]⟩] [] (some [(0, [0])]) (some [⟨[0]⟩])).dense.get? h = some v ∧
          d = v.distance ⟨[1]⟩ ∧
          ∀ h2 w, h2 ∈ bucket →
            (VectorStore.mk [⟨[0]⟩] [] (some [(0, [0])]) (some [⟨[0]⟩])).dense.get? h2 = some w →
            d ≤ w.distance ⟨[1]⟩) :=
  ivf_search_correct (VectorStore.mk [⟨[0]⟩] [] (some [(0, [0])]) (some [⟨[0]⟩])) ⟨[1]⟩
    (by
      intro idx hidxeq c b hb h hm
      have hie : idx = [(0, [0])] := (Option.some.inj hidxeq).symm
      subst hie
      rw [alGet_cons] at hb
      by_cases h0 : (0 : ℕ) = c
      · rw [if_pos h0] at hb
        have hbe : b = [0] := (Option.some.inj hb).symm
        subst hbe
        simp only [List.mem_singleton] at hm
        subst hm
        simp
      · rw [if_neg h0] at hb
        simp [alGet] at hb)
    (by
      intro cs hcseq
      have hce : cs = [⟨[0]⟩] := (Option.some.inj hcseq).symm
      subst hce
      exact List.cons_ne_nil _ _)
